import Mathlib

/-!
Verification of the Acquia docs MCP server (`src/main.py`) against its
natural-language specification.

The Python source is shallowly embedded: every pure helper of the source
becomes an executable Lean function with the same name, stateful code
(the FIFO page cache, the crawl loop) becomes explicit state passing on a
state structure, and the network fetcher — an external collaborator in the
spec — becomes a function parameter `f : String → Page` (the fetcher
"never raises": failures are `Page` records with `success := false`).

Python string primitives used by the source (`lower`, `split`, `count`,
`in`, `startswith`, `endswith`, `strip`, `urllib` quoting and URL parsing)
are modelled first, faithfully for the ASCII strings this program handles:
`str.count` counts non-overlapping occurrences left to right and returns
`len(s) + 1` for the empty needle; `"" in s` is always `True`;
`str.split()` with no argument splits on whitespace runs and never
produces empty words.
-/

/-- Python `sub in s` on lists of characters (generalised): the empty
needle is contained in everything, otherwise scan for a prefix match. -/
def containsSub {α : Type} [DecidableEq α] (needle : List α) : List α → Bool
  | [] => needle.isEmpty
  | a :: t => if needle.isEmpty then true else (needle.isPrefixOf (a :: t) || containsSub needle t)

/-- Worker for `countOcc`, structurally recursive on the haystack: the
second argument counts characters still to be skipped after a match
(so that matches never overlap, as in Python's `str.count`). -/
def countOccGo {α : Type} [DecidableEq α] (needle : List α) : List α → Nat → Nat
  | [], _ => 0
  | a :: t, 0 =>
    if needle.isPrefixOf (a :: t) then 1 + countOccGo needle t (needle.length - 1)
    else countOccGo needle t 0
  | _ :: t, k + 1 => countOccGo needle t k

/-- Python `s.count(sub)`: non-overlapping occurrences scanning left to
right; for the empty needle Python returns `len(s) + 1`. -/
def countOcc {α : Type} [DecidableEq α] (needle hay : List α) : Nat :=
  if needle.isEmpty then hay.length + 1 else countOccGo needle hay 0

/-- Skipping `k` characters is counting on the `k`-dropped haystack. -/
theorem countOccGo_drop {α : Type} [DecidableEq α] (needle : List α) :
    ∀ (hay : List α) (k : Nat), countOccGo needle hay k = countOccGo needle (hay.drop k) 0 := by
  intro hay
  induction hay with
  | nil => intro k; simp [countOccGo]
  | cons x s ih =>
    intro k
    cases k with
    | zero => rfl
    | succ j =>
      rw [show countOccGo needle (x :: s) (j + 1) = countOccGo needle s j from rfl]
      rw [ih j, List.drop_succ_cons]

/-- Lowercasing as Python `str.lower()` does for ASCII text. -/
def pyLower (s : String) : String := String.mk (s.data.map Char.toLower)

/-- Python `sub in s`. -/
def pyContains (sub s : String) : Bool := containsSub sub.data s.data

/-- Python `s.count(sub)`. -/
def pyCount (sub s : String) : Nat := countOcc sub.data s.data

/-- Python `s.startswith(pre)`. -/
def pyStartsWith (pre s : String) : Bool := pre.data.isPrefixOf s.data

/-- Python `s.endswith(suf)`. -/
def pyEndsWith (suf s : String) : Bool := suf.data.isSuffixOf s.data

/-- Worker for `pySplitWs`: accumulates the current (reversed) word. -/
def splitWsGo : List Char → List Char → List String
  | [], [] => []
  | [], cur => [String.mk cur.reverse]
  | c :: rest, cur =>
    if c.isWhitespace then
      match cur with
      | [] => splitWsGo rest []
      | _ => String.mk cur.reverse :: splitWsGo rest []
    else splitWsGo rest (c :: cur)

/-- Python `s.split()` (no separator): split on whitespace runs, no empty
words. -/
def pySplitWs (s : String) : List String := splitWsGo s.data []

/-- One character of `urllib` percent-quoting (ASCII range; safe set is
letters, digits, `_ . - ~` and `/`, matching `requests.utils.quote`). -/
def quoteChar (c : Char) : List Char :=
  if c.isAlphanum || c = '_' || c = '.' || c = '-' || c = '~' || c = '/' then [c]
  else
    let n := c.toNat
    let hexDigit := fun (k : Nat) => if k < 10 then Char.ofNat (48 + k) else Char.ofNat (55 + k)
    ['%', hexDigit (n / 16 % 16), hexDigit (n % 16)]

/-- Python `requests.utils.quote(s)` for ASCII strings. -/
def pyQuote (s : String) : String := String.mk (s.data.flatMap quoteChar)

/-- Everything after the first occurrence of `sep`, or `none` when
`sep` does not occur. -/
def afterMarker {α : Type} [DecidableEq α] (sep : List α) : List α → Option (List α)
  | [] => none
  | a :: t =>
    if sep.isPrefixOf (a :: t) then some ((a :: t).drop sep.length)
    else afterMarker sep t

/-- The part of a URL after `scheme://`, if the URL has one. Models the
behaviour of `urllib.parse.urlparse` on the absolute `http(s)` URLs this
program manipulates. -/
def urlRest (url : String) : Option String :=
  (afterMarker "://".data url.data).map String.mk

/-- `urlparse(url).netloc` for absolute URLs: the host part, delimited by
`/`, `?` or `#`. -/
def urlNetloc (url : String) : String :=
  match urlRest url with
  | some r => String.mk (r.data.takeWhile (fun c => c != '/' && c != '?' && c != '#'))
  | none => ""

/-- `urlparse(url).path`: the path component, without query or fragment. -/
def urlPath (url : String) : String :=
  match urlRest url with
  | some r =>
    String.mk (((r.data.dropWhile (fun c => c != '/' && c != '?' && c != '#')).takeWhile
      (fun c => c != '?' && c != '#')))
  | none => String.mk (url.data.takeWhile (fun c => c != '?' && c != '#'))

/-! ## Configuration constants of `src/main.py` -/

def DRUPAL_BASE_URL : String := "https://docs.acquia.com/"

def MAIN_DOC_URLS : List String :=
  [ "https://docs.acquia.com/acquia-source/overview",
    "https://docs.acquia.com/campaign-studio/overview",
    "https://docs.acquia.com/content-optimization/overview",
    "https://docs.acquia.com/conversion-optimization/overview",
    "https://docs.acquia.com/customer-data-platform/overview-0",
    "https://docs.acquia.com/acquia-cloud-platform/overview",
    "https://docs.acquia.com/acquia-dam/overview",
    "https://docs.acquia.com/drupal-starter-kits/overview",
    "https://docs.acquia.com/site-factory/overview",
    "https://docs.acquia.com/web-governance/overview" ]

def CACHE_SIZE : Nat := 1000

def MAX_PAGES_PER_PRODUCT : Nat := 75

def MEMCACHED_DOC_URL : String :=
  "https://docs.acquia.com/acquia-cloud-platform/enabling-memcached-cloud-platform"

/-- The pre-loaded Memcached document text (`MEMCACHED_DOC_CONTENT`).
Braces, apostrophes and backticks of the original text are written with
`\xNN` escapes. -/
def MEMCACHED_DOC_CONTENT : String := String.intercalate "\n"
  [ "# Enabling Memcached on Cloud Platform",
    "",
    "To enable Memcached on your website hosted by Cloud Platform, you must install the Memcache API and Integration module in your codebase, and configure the module for use.",
    "",
    "## Configuration for the current Drupal version",
    "",
    "For Memcached to function, you must provide additional configuration code that enables autoloading, and identifies Memcached as an alternative cache back-end.",
    "",
    "To configure your website for Memcached, make the following changes to your codebase, depending on your subscription type:",
    "",
    "### For Cloud Classic:",
    "",
    "1. Download the Memcache API and Integration module, and then add the module to your codebase in the modules/contrib/memcache directory. Acquia recommends that you use Composer to install the module:",
    "   \x60\x60\x60",
    "   composer require drupal/memcache",
    "   \x60\x60\x60",
    "",
    "2. For Cloud Classic, do the following:",
    "   ",
    "   a. Add the Composer package that contains the Acquia Memcache settings to your project:",
    "   \x60\x60\x60",
    "   composer require acquia/memcache-settings",
    "   \x60\x60\x60",
    "   ",
    "   b. For each website that requires Memcached, edit the Cloud Platform database require line in settings.php with a PHP require_once statement, similar to the following example:",
    "   \x60\x60\x60php",
    "   if (file_exists(\x27/var/www/site-php\x27)) \x7b",
    "      require(\x27/var/www/site-php/mysite/mysite-settings.inc\x27);",
    "      // Memcached settings for Acquia Hosting",
    "      $memcache_settings_file = DRUPAL_ROOT . \"/../vendor/acquia/memcache-settings/memcache.settings.php\";",
    "      if (file_exists($memcache_settings_file)) \x7b",
    "        require_once $memcache_settings_file;",
    "      \x7d",
    "   \x7d",
    "   \x60\x60\x60",
    "",
    "3. Rebuild caches by running the following command, replacing [example.com] with the domain name of your website:",
    "   \x60\x60\x60",
    "   drush cr --uri=[example.com]",
    "   \x60\x60\x60",
    "",
    "4. Truncate all cache_ tables in the database for the website.",
    "",
    "### For Cloud Next:",
    "For Cloud Next, you do not need to add anything to your settings.php file as the configuration logic is already included in Cloud Next. If you already have code in settings.php that enables Memcache integration with Cloud Platform, you can opt to remove it.",
    "",
    "## Important Notes:",
    "- Do not edit the memcache_key_prefix or memcache_servers settings, as Cloud Platform adds the correct values in Acquia-specific code.",
    "- Test any procedures on a non-production environment before implementing them on production.",
    "- The same steps must be used for CD environments because CD environments are not supported in Cloud Next.",
    "",
    "Source: https://docs.acquia.com/acquia-cloud-platform/enabling-memcached-cloud-platform",
    "" ]

/-! ## Data model -/

/-- The page record produced by the fetcher (`fetch_page`'s result dict):
`\x7burl, title, content, links, success\x7d`. -/
structure Page where
  url : String
  title : String
  content : String
  links : List String
  success : Bool
deriving DecidableEq, Repr

/-- `get_memcached_doc_data()`: the pre-loaded canonical Memcached page. -/
def get_memcached_doc_data : Page :=
  { url := MEMCACHED_DOC_URL
    title := "Enabling Memcached on Cloud Platform"
    content := MEMCACHED_DOC_CONTENT
    links := []
    success := true }

/-! ## URL classifier -/

def excluded_patterns : List String :=
  [ "/user/login", "/user/register", "/user/password", "/user/logout",
    "/admin/", "/taxonomy/term/", "/node/add",
    "/contact", "/rss.xml", "/sitemap.xml" ]

def excluded_extensions : List String :=
  [ ".jpg", ".jpeg", ".png", ".gif", ".pdf", ".zip", ".tar.gz", ".css", ".js" ]

def problem_patterns : List String :=
  [ "/themes/", "/modules/", "/core/", "/sites/default" ]

/-- `is_docs_url(url)`: domain check, deny-list of path substrings and
file extensions, then accept only paths that start with `/` and are
longer than one character and avoid the internal asset markers. -/
def is_docs_url (url : String) : Bool :=
  if urlNetloc url = urlNetloc DRUPAL_BASE_URL then
    let path_lower := pyLower (urlPath url)
    if excluded_patterns.any (fun p => pyContains p path_lower) then false
    else if excluded_extensions.any (fun e => pyEndsWith e path_lower) then false
    else if pyStartsWith "/" path_lower && decide (1 < path_lower.length) then
      !(problem_patterns.any (fun p => pyContains p path_lower))
    else false
  else false

/-- `get_product_area(url)`: first matching category path marker, else
`general`. -/
def get_product_area (url : String) : String :=
  let path := pyLower (urlPath url)
  if pyContains "/acquia-source" path then "acquia-source"
  else if pyContains "/campaign-studio" path then "campaign-studio"
  else if pyContains "/content-optimization" path then "content-optimization"
  else if pyContains "/conversion-optimization" path then "conversion-optimization"
  else if pyContains "/customer-data-platform" path then "customer-data-platform"
  else if pyContains "/acquia-cloud-platform" path then "acquia-cloud-platform"
  else if pyContains "/acquia-dam" path then "acquia-dam"
  else if pyContains "/drupal-starter-kits" path then "drupal-starter-kits"
  else if pyContains "/site-factory" path then "site-factory"
  else if pyContains "/web-governance" path then "web-governance"
  else "general"

/-! ## Memcached query detection and relevance scoring -/

def memcache_indicators : List String := ["memcache", "memcached", "cache", "caching"]

def settings_indicators : List String := ["settings.php", "settings", "configuration", "config"]

def action_indicators : List String :=
  ["enable", "enabling", "configure", "setup", "install", "add", "integration"]

def demo_phrases : List String :=
  [ "enable memcached", "memcache integration", "memcached settings",
    "cache backend", "acquia memcache", "cloud classic memcache" ]

/-- `is_memcached_related_query(query)`: keyword-combination heuristics.
(The `platform_indicators` list of the source is defined but never read
by the decision logic, so it does not appear here.) -/
def is_memcached_related_query (query : String) : Bool :=
  let query_lower := pyLower query
  let has_memcache := memcache_indicators.any (fun i => pyContains i query_lower)
  let has_settings := settings_indicators.any (fun i => pyContains i query_lower)
  let has_action := action_indicators.any (fun i => pyContains i query_lower)
  if has_memcache && has_settings then true
  else if has_memcache && has_action then true
  else if demo_phrases.any (fun p => pyContains p query_lower) then true
  else false

def memcache_keywords : List String :=
  ["memcache", "settings.php", "cloud classic", "require_once", "composer require"]

/-- `calculate_relevance(query, page_data)`: title/content signals summed,
plus the Memcached domain boost. -/
def calculate_relevance (query : String) (page_data : Page) : Int :=
  let query_lower := pyLower query
  let query_words := pySplitWs query_lower
  let content_lower := pyLower page_data.content
  let title_lower := pyLower page_data.title
  let title_exact_match : Int := if pyContains query_lower title_lower then 10 else 0
  let title_word_matches : Int :=
    (query_words.countP (fun word => pyContains word title_lower) : Int) * 5
  let content_exact_match : Int := (pyCount query_lower content_lower : Int) * 2
  let content_word_matches : Int :=
    ((query_words.map (fun word => pyCount word content_lower)).sum : Int)
  let base_score := title_exact_match + title_word_matches + content_exact_match + content_word_matches
  if is_memcached_related_query query then
    let doc_boost : Int :=
      if page_data.url = MEMCACHED_DOC_URL || pyContains "memcached" title_lower then 1000 else 0
    let memcache_boost : Int :=
      ((memcache_keywords.map (fun keyword => pyCount keyword content_lower * 50)).sum : Int)
    base_score + doc_boost + memcache_boost
  else base_score

/-- `extract_snippet(query, content, max_length)`: up to two sentences
(split on `.`) containing a query word, joined and truncated. -/
def extract_snippet (query content : String) (max_length : Nat) : String :=
  let query_words := pySplitWs (pyLower query)
  let sentences := content.splitOn "."
  let relevant_sentences :=
    ((sentences.filter (fun s => query_words.any (fun w => pyContains w (pyLower s)))).take 2).map
      (fun s => s.trim)
  let snippet :=
    match relevant_sentences with
    | [] => ""
    | _ => String.intercalate ". " relevant_sentences ++ "."
  if max_length < snippet.length then snippet.take max_length ++ "..." else snippet

/-! ## Page cache (`page_cache` + `add_to_cache`)

The cache is a Python 3.7+ `dict`, i.e. a finite map that remembers
insertion order.  It is modelled as an association list in insertion
order (oldest first).  `add_to_cache` is parameterised by the capacity;
the source instantiates it with `CACHE_SIZE`.  Python raises
`StopIteration` when `next(iter(page_cache))` is evaluated on an empty
dict; that failure is the `none` result. -/

/-- Python dict assignment `d[k] = v`: replace in place if the key is
present, else append at the end (newest insertion position). -/
def dictInsert (cache : List (String × Page)) (url : String) (d : Page) :
    List (String × Page) :=
  match cache with
  | [] => [(url, d)]
  | (k, v) :: rest => if k = url then (k, d) :: rest else (k, v) :: dictInsert rest url d

/-- `add_to_cache(url, page_data)` at capacity `C`: evict the oldest
entry first whenever the cache already holds at least `C` entries, then
insert.  `none` models the `StopIteration` raised by evicting from an
empty dict. -/
def add_to_cache (C : Nat) (cache : List (String × Page)) (url : String) (d : Page) :
    Option (List (String × Page)) :=
  if C ≤ cache.length then
    match cache with
    | [] => none
    | _ :: rest => some (dictInsert rest url d)
  else some (dictInsert cache url d)

/-- A sequence of `add_to_cache` calls. -/
def runPuts (C : Nat) (cache : List (String × Page)) :
    List (String × Page) → Option (List (String × Page))
  | [] => some cache
  | (u, d) :: rest =>
    match add_to_cache C cache u d with
    | none => none
    | some c => runPuts C c rest

/-- The last `C` elements of a list (what survives FIFO eviction). -/
def takeRightL {α : Type} (C : Nat) (l : List α) : List α := l.drop (l.length - C)

/-! ## Crawler (`crawl_docs`)

The `while to_visit:` loop becomes a step function on an explicit state;
running the loop is iterating the step until the frontier is empty.
The fetcher is the parameter `f`. -/

structure CrawlState where
  visited : Finset String
  toVisit : List (String × Nat × String)
  pages : List (String × Page)
  counts : String → Nat

/-- One iteration of the `while to_visit:` loop of `crawl_docs`.  When
the frontier is empty the state is returned unchanged (the loop has
ended).  Mirrors the source order: visited/depth skip, then budget skip,
then mark visited + count, then fetch; on success record the page and,
below the depth ceiling, enqueue up to 25 same-product and 8 other
links that are neither visited nor already in the frontier. -/
def crawlStep (f : String → Page) (max_depth : Nat) (s : CrawlState) : CrawlState :=
  match s.toVisit with
  | [] => s
  | (url, depth, _product_hint) :: rest =>
    if url ∈ s.visited ∨ max_depth < depth then
      { s with toVisit := rest }
    else
      let product_area := get_product_area url
      if MAX_PAGES_PER_PRODUCT ≤ s.counts product_area then
        { s with toVisit := rest }
      else
        let visited' := insert url s.visited
        let counts' := Function.update s.counts product_area (s.counts product_area + 1)
        let page_data := f url
        if page_data.success then
          if depth < max_depth then
            let frontierKeys := rest.map (fun item => item.1)
            let fresh := page_data.links.filter
              (fun link => decide (link ∉ visited') && decide (link ∉ frontierKeys))
            let same_product_links := fresh.filter (fun link => decide (get_product_area link = product_area))
            let other_links := fresh.filter (fun link => decide (¬ get_product_area link = product_area))
            { visited := visited'
              toVisit := rest
                ++ (same_product_links.take 25).map (fun link => (link, depth + 1, product_area))
                ++ (other_links.take 8).map (fun link => (link, depth + 1, get_product_area link))
              pages := s.pages ++ [(url, page_data)]
              counts := counts' }
          else
            { visited := visited', toVisit := rest, pages := s.pages ++ [(url, page_data)],
              counts := counts' }
        else
          { visited := visited', toVisit := rest, pages := s.pages, counts := counts' }

/-- The initial crawl state for a seed list: every seed at depth 0 with
the placeholder product hint `main`, nothing visited, no pages, all
category counts zero. -/
def initCrawlState (start_urls : List String) : CrawlState :=
  { visited := ∅
    toVisit := start_urls.map (fun u => (u, 0, "main"))
    pages := []
    counts := fun _ => 0 }

/-- The seed list `crawl_docs` uses when called without `start_urls`. -/
def defaultSeeds : List String := DRUPAL_BASE_URL :: MAIN_DOC_URLS

/-- URLs reachable from the seeds in at most `k` link steps under
fetcher `f`; a finite over-approximation of everything the crawl can
ever visit, used for the termination measure. -/
def reachLevel (f : String → Page) (seeds : List String) : Nat → List String
  | 0 => seeds
  | k + 1 =>
    reachLevel f seeds k ++ ((reachLevel f seeds k).map (fun u => (f u).links)).flatten

/-! ## Search pipeline (`direct_search_docs` and friends) -/

/-- One entry of the result list built by `direct_search_docs`. -/
structure SearchResult where
  title : String
  url : String
  snippet : String
  content : String
  relevance : Int
deriving DecidableEq, Repr

/-- The hard-coded entry points of `direct_search_docs`
(`MAIN_DOC_URLS` plus the ten product landing pages). -/
def baseDocUrls : List String :=
  MAIN_DOC_URLS ++
  [ "https://docs.acquia.com/acquia-cloud-platform",
    "https://docs.acquia.com/acquia-dam",
    "https://docs.acquia.com/campaign-studio",
    "https://docs.acquia.com/content-optimization",
    "https://docs.acquia.com/conversion-optimization",
    "https://docs.acquia.com/customer-data-platform",
    "https://docs.acquia.com/acquia-source",
    "https://docs.acquia.com/drupal-starter-kits",
    "https://docs.acquia.com/site-factory",
    "https://docs.acquia.com/web-governance" ]

/-- The scrape of Acquia's own search page: keep links that are docs
URLs and not already entry points, stopping once 20 are collected.
`raw` is the link list extracted from the fetched search page (external
input). -/
def collectSearchLinks (doc_urls : List String) : List String → List String → List String
  | acc, [] => acc
  | acc, link :: rest =>
    if is_docs_url link && decide (link ∉ doc_urls) then
      let acc' := acc ++ [link]
      if 20 ≤ acc'.length then acc' else collectSearchLinks doc_urls acc' rest
    else collectSearchLinks doc_urls acc rest

/-- Build one `SearchResult` row exactly as `direct_search_docs` does. -/
def mkSearchResult (query url : String) (page : Page) (score : Int) : SearchResult :=
  { title := page.title
    url := url
    snippet := extract_snippet query page.content 300
    content := page.content
    relevance := score }

/-- The two-hop expansion of a high-scoring entry point: check up to 20
linked pages that are not entry points themselves. -/
def expandHighScore (f : String → Page) (query : String) (doc_urls : List String)
    (acc : List SearchResult) (links : List String) : List SearchResult :=
  (links.take 20).foldl
    (fun a linked_url =>
      if linked_url ∈ doc_urls then a
      else
        let linked_page := f linked_url
        if linked_page.success then
          let linked_score := calculate_relevance query linked_page
          if 0 < linked_score then a ++ [mkSearchResult query linked_url linked_page linked_score]
          else a
        else a)
    acc

/-- The expansion of an overview page with no direct match: check up to
30 linked pages not already among the collected results. -/
def expandOverview (f : String → Page) (query : String)
    (acc : List SearchResult) (links : List String) : List SearchResult :=
  (links.take 30).foldl
    (fun a linked_url =>
      if linked_url ∈ a.map (fun r => r.url) then a
      else
        let linked_page := f linked_url
        if linked_page.success then
          let linked_score := calculate_relevance query linked_page
          if 0 < linked_score then a ++ [mkSearchResult query linked_url linked_page linked_score]
          else a
        else a)
    acc

/-- Processing of one entry-point URL in the first pass of
`direct_search_docs`. -/
def processUrl (f : String → Page) (query : String) (doc_urls : List String)
    (acc : List SearchResult) (url : String) : List SearchResult :=
  let page_data := f url
  if page_data.success then
    let score := calculate_relevance query page_data
    if 0 < score then
      let acc' := acc ++ [mkSearchResult query url page_data score]
      if 50 < score ∧ page_data.links ≠ [] then expandHighScore f query doc_urls acc' page_data.links
      else acc'
    else if page_data.links ≠ [] ∧ (pyContains "overview" url || pyContains "web-governance" url) then
      expandOverview f query acc page_data.links
    else acc
  else acc

/-- All results collected by `direct_search_docs` before sorting:
the entry points (including the search-page discoveries) processed in
order. `searchResp` is the outcome of the best-effort request to
Acquia's search endpoint: `none` when it failed, otherwise the raw link
list of the returned page. -/
def collectResults (f : String → Page) (searchResp : Option (List String))
    (query : String) : List SearchResult :=
  let doc_urls := baseDocUrls ++
    (match searchResp with
     | none => []
     | some raw => collectSearchLinks baseDocUrls [] raw)
  doc_urls.foldl (processUrl f query doc_urls) []

/-- Stable insertion (descending relevance): an element is placed after
every earlier element whose relevance is at least as large, matching
Python's stable `sort(key=..., reverse=True)`. -/
def insertDesc (r : SearchResult) : List SearchResult → List SearchResult
  | [] => [r]
  | x :: xs => if x.relevance ≤ r.relevance then r :: x :: xs else x :: insertDesc r xs

/-- Stable sort by relevance, descending. -/
def sortByRelevanceDesc : List SearchResult → List SearchResult
  | [] => []
  | x :: xs => insertDesc x (sortByRelevanceDesc xs)

/-- `smart_memcached_injection(query, results)`: for a recognised
Memcached query, insert the canonical document at rank 0 unless some
result already carries its URL. -/
def smart_memcached_injection (query : String) (results : List SearchResult) :
    List SearchResult :=
  if is_memcached_related_query query then
    if results.any (fun result => result.url = MEMCACHED_DOC_URL) then results
    else
      let memcached_data := get_memcached_doc_data
      { title := memcached_data.title
        url := memcached_data.url
        snippet := extract_snippet query memcached_data.content 300
        content := memcached_data.content
        relevance := calculate_relevance query memcached_data } :: results
  else results

/-- The `no results` placeholder entry of `direct_search_docs`. -/
def noResultsPlaceholder (query : String) : SearchResult :=
  { title := "No results found for \"" ++ query ++ "\""
    url := "https://docs.acquia.com/search/?q=" ++ pyQuote query
    snippet := "No matching content found in the documentation for \"" ++ query ++
      "\". Try the manual search link or use different keywords."
    content := ""
    relevance := 0 }

/-- `direct_search_docs(query)`: collect, sort descending, apply the
Memcached injection, fall back to the placeholder when empty, truncate
to ten. -/
def direct_search_docs (f : String → Page) (searchResp : Option (List String))
    (query : String) : List SearchResult :=
  let results := sortByRelevanceDesc (collectResults f searchResp query)
  let results := smart_memcached_injection query results
  if results = [] then [noResultsPlaceholder query] else results.take 10

/-! ## Generic list/cache lemmas -/

/-- A fixed page record used for concrete cache scenarios. -/
def examplePage : Page :=
  { url := "u", title := "t", content := "c", links := [], success := true }

theorem dictInsert_of_not_mem (cache : List (String × Page)) (u : String) (d : Page)
    (h : u ∉ cache.map Prod.fst) : dictInsert cache u d = cache ++ [(u, d)] := by
  induction cache with
  | nil => rfl
  | cons hd tl ih =>
    obtain ⟨k, v⟩ := hd
    simp only [List.map_cons, List.mem_cons] at h
    push_neg at h
    simp [dictInsert, Ne.symm h.1, ih h.2]

theorem dictInsert_keys_of_mem (cache : List (String × Page)) (u : String) (d : Page)
    (h : u ∈ cache.map Prod.fst) :
    (dictInsert cache u d).map Prod.fst = cache.map Prod.fst := by
  induction cache with
  | nil => simp at h
  | cons hd tl ih =>
    obtain ⟨k, v⟩ := hd
    by_cases hk : k = u
    · simp [dictInsert, hk]
    · simp only [List.map_cons, List.mem_cons] at h
      rcases h with h | h
      · exact absurd h.symm hk
      · simp [dictInsert, hk, ih h]

theorem takeRightL_of_le {α : Type} (C : Nat) (l : List α) (h : l.length ≤ C) :
    takeRightL C l = l := by
  unfold takeRightL
  have : l.length - C = 0 := by omega
  simp [this]

theorem takeRightL_cons_of_le {α : Type} (C : Nat) (x : α) (l : List α) (h : C ≤ l.length) :
    takeRightL C (x :: l) = takeRightL C l := by
  unfold takeRightL
  have : (x :: l).length - C = (l.length - C) + 1 := by simp; omega
  rw [this, List.drop_succ_cons]

theorem takeRightL_length {α : Type} (C : Nat) (l : List α) (h : C ≤ l.length) :
    (takeRightL C l).length = C := by
  simp [takeRightL]
  omega

/-- Core induction for the FIFO cache: starting below capacity `C ≥ 1`
with globally distinct keys, every put succeeds, the key list is always
the last `C` keys seen, and the size never exceeds `C`. -/
theorem runPuts_keys (C : Nat) (hC : 1 ≤ C) :
    ∀ (puts cache : List (String × Page)),
      (cache.map Prod.fst ++ puts.map Prod.fst).Nodup → cache.length ≤ C →
      ∃ r, runPuts C cache puts = some r ∧
        r.map Prod.fst = takeRightL C (cache.map Prod.fst ++ puts.map Prod.fst) ∧
        r.length ≤ C := by
  intro puts
  induction puts with
  | nil =>
    intro cache hnd hlen
    refine ⟨cache, rfl, ?_, hlen⟩
    rw [List.map_nil, List.append_nil, takeRightL_of_le]
    simpa using hlen
  | cons p rest ih =>
    intro cache hnd hlen
    obtain ⟨u, d⟩ := p
    have hu_not_cache : u ∉ cache.map Prod.fst := by
      intro hmem
      have := (List.nodup_append.mp hnd).2.2
      exact this hmem (by simp)
    by_cases hfull : C ≤ cache.length
    · -- at capacity: cache has exactly C ≥ 1 entries, evict the head
      have hCeq : cache.length = C := le_antisymm hlen hfull
      obtain ⟨c0, ctail, rfl⟩ : ∃ c0 ctail, cache = c0 :: ctail := by
        cases cache with
        | nil => simp at hCeq; omega
        | cons c0 ctail => exact ⟨c0, ctail, rfl⟩
      have hu_not_tail : u ∉ ctail.map Prod.fst := by
        intro hmem
        exact hu_not_cache (by simp [hmem])
      have hstep : add_to_cache C (c0 :: ctail) u d = some (ctail ++ [(u, d)]) := by
        rw [show add_to_cache C (c0 :: ctail) u d = some (dictInsert ctail u d) by
          unfold add_to_cache
          rw [if_pos hfull]]
        rw [dictInsert_of_not_mem _ _ _ hu_not_tail]
      have hnd' : ((ctail ++ [(u, d)]).map Prod.fst ++ rest.map Prod.fst).Nodup := by
        have : (ctail.map Prod.fst ++ (u :: rest.map Prod.fst)).Nodup := by
          have := hnd
          simp only [List.map_cons, List.cons_append, List.nodup_cons] at this
          simpa using this.2
        simpa [List.append_assoc] using this
      have hlen' : (ctail ++ [(u, d)]).length ≤ C := by
        simp at hCeq ⊢
        omega
      obtain ⟨r, hrun, hkeys, hrlen⟩ := ih (ctail ++ [(u, d)]) hnd' hlen'
      refine ⟨r, ?_, ?_, hrlen⟩
      · simp [runPuts, hstep, hrun]
      · rw [hkeys]
        have hrw : (ctail ++ [(u, d)]).map Prod.fst ++ rest.map Prod.fst
            = ctail.map Prod.fst ++ ((u, d) :: rest).map Prod.fst := by
          simp
        rw [hrw]
        have hlenge : C ≤ (ctail.map Prod.fst ++ ((u, d) :: rest).map Prod.fst).length := by
          simp at hCeq ⊢
          omega
        rw [← takeRightL_cons_of_le C c0.1 _ hlenge]
        simp
    · -- below capacity: plain insertion at the end
      push_neg at hfull
      have hstep : add_to_cache C cache u d = some (cache ++ [(u, d)]) := by
        rw [show add_to_cache C cache u d = some (dictInsert cache u d) by
          unfold add_to_cache
          rw [if_neg (by omega)]]
        rw [dictInsert_of_not_mem _ _ _ hu_not_cache]
      have hnd' : ((cache ++ [(u, d)]).map Prod.fst ++ rest.map Prod.fst).Nodup := by
        simpa [List.append_assoc] using hnd
      have hlen' : (cache ++ [(u, d)]).length ≤ C := by
        simp
        omega
      obtain ⟨r, hrun, hkeys, hrlen⟩ := ih (cache ++ [(u, d)]) hnd' hlen'
      refine ⟨r, ?_, ?_, hrlen⟩
      · simp [runPuts, hstep, hrun]
      · rw [hkeys]
        congr 1
        simp

/-- C2 (amended: the capacity must be positive — see
`c2_fifo_cache_counterexample` for capacity 0): for every capacity
`C ≥ 1` and every sequence of more than `C` puts with pairwise-distinct
URLs into an initially empty cache, every put succeeds, the final cache
holds exactly the `C` most recently inserted URLs in insertion order
(so each eviction removed the oldest surviving entry), and the cache
size never exceeds `C` after any prefix of the puts. -/
theorem c2_fifo_cache_amended (C : Nat) (puts : List (String × Page))
    (hC : 1 ≤ C) (hnd : (puts.map Prod.fst).Nodup) (hlen : C < puts.length) :
    ∃ r, runPuts C [] puts = some r ∧
      r.map Prod.fst = takeRightL C (puts.map Prod.fst) ∧
      r.length = C ∧
      ∀ k, ∃ c, runPuts C [] (puts.take k) = some c ∧ c.length ≤ C := by
  obtain ⟨r, hrun, hkeys, hrlen⟩ := runPuts_keys C hC puts [] (by simpa using hnd) (by simp)
  have hkeys' : r.map Prod.fst = takeRightL C (puts.map Prod.fst) := by simpa using hkeys
  refine ⟨r, hrun, hkeys', ?_, ?_⟩
  · have hc : (r.map Prod.fst).length = C := by
      rw [hkeys']
      exact takeRightL_length C _ (by simp; omega)
    simpa using hc
  · intro k
    have hndk : ((puts.take k).map Prod.fst).Nodup := by
      rw [List.map_take]
      exact hnd.sublist (List.take_sublist k _)
    obtain ⟨c, hc, _, hclen⟩ := runPuts_keys C hC (puts.take k) [] (by simpa using hndk) (by simp)
    exact ⟨c, hc, hclen⟩

/-- C2 counterexample: the claim quantifies over every capacity, but at
capacity 0 the very first put evicts from an empty dict, and
`next(iter(page_cache))` raises `StopIteration` (modelled as `none`):
the cache does not end up holding "the 0 most recent URLs", the call
fails instead. -/
theorem c2_fifo_cache_counterexample :
    runPuts 0 [] [("u", examplePage)] = none := by rfl

/-- Witness for `c2_fifo_cache_amended` at capacity 1 with two distinct
URLs. -/
theorem c2_fifo_cache_witness :
    ∃ r, runPuts 1 [] [("a", examplePage), ("b", examplePage)] = some r ∧
      r.map Prod.fst = takeRightL 1 ([("a", examplePage), ("b", examplePage)].map Prod.fst) ∧
      r.length = 1 ∧
      ∀ k, ∃ c, runPuts 1 [] ([("a", examplePage), ("b", examplePage)].take k) = some c ∧
        c.length ≤ 1 :=
  c2_fifo_cache_amended 1 [("a", examplePage), ("b", examplePage)]
    (by decide) (by decide) (by decide)

/-! ## C9: re-inserting a present URL at capacity -/

/-- C9 (amended): when `add_to_cache` is called with a URL already
present while the cache holds `CACHE_SIZE` entries, the oldest entry is
evicted even though the insertion only replaces an existing key.  If
the URL is not itself the oldest entry, its position among the
surviving entries is unchanged and the size drops to `CACHE_SIZE - 1`;
if the URL *is* the oldest entry, it is evicted and re-appended at the
newest position — it does move later in the eviction order (the
original claim's "never moves later" fails exactly there, see
`c9_reinsert_counterexample`). -/
theorem c9_reinsert_amended (k : String) (v : Page) (rest : List (String × Page))
    (u : String) (d : Page)
    (hlen : ((k, v) :: rest).length = CACHE_SIZE)
    (hnd : (((k, v) :: rest).map Prod.fst).Nodup)
    (hmem : u ∈ ((k, v) :: rest).map Prod.fst) :
    ∃ r, add_to_cache CACHE_SIZE ((k, v) :: rest) u d = some r ∧
      (u ≠ k → r.map Prod.fst = rest.map Prod.fst ∧ r.length = CACHE_SIZE - 1) ∧
      (u = k → r.map Prod.fst = rest.map Prod.fst ++ [u]) := by
  have hstep : add_to_cache CACHE_SIZE ((k, v) :: rest) u d = some (dictInsert rest u d) := by
    unfold add_to_cache
    rw [if_pos (le_of_eq hlen.symm)]
  refine ⟨dictInsert rest u d, hstep, ?_, ?_⟩
  · intro hne
    have hmem' : u ∈ rest.map Prod.fst := by
      simp only [List.map_cons, List.mem_cons] at hmem
      rcases hmem with h | h
      · exact absurd h hne
      · exact h
    refine ⟨dictInsert_keys_of_mem rest u d hmem', ?_⟩
    have hl := congrArg List.length (dictInsert_keys_of_mem rest u d hmem')
    simp only [List.length_map] at hl
    simp only [List.length_cons] at hlen
    omega
  · intro heq
    subst heq
    have hnotmem : u ∉ rest.map Prod.fst := by
      simp only [List.map_cons, List.nodup_cons] at hnd
      exact hnd.1
    rw [dictInsert_of_not_mem rest u d hnotmem]
    simp

/-- Keys for a concrete full cache: the `i`-th key is `i` copies of
`a`, so keys are pairwise distinct. -/
def c9key (i : Nat) : String := String.mk (List.replicate i 'a')

/-- A concrete cache holding exactly `CACHE_SIZE = 1000` entries, whose
oldest entry has key `c9key 0 = ""`. -/
def c9cache : List (String × Page) := (List.range 1000).map (fun i => (c9key i, examplePage))

/-- The tail of `c9cache`. -/
def c9tail : List (String × Page) := (List.range 999).map (fun i => (c9key (i + 1), examplePage))

theorem c9key_injective : Function.Injective c9key := by
  intro a b h
  have hlen := congrArg (fun s : String => s.data.length) h
  simpa [c9key] using hlen

theorem c9cache_eq : c9cache = (c9key 0, examplePage) :: c9tail := by
  have h : (1000 : Nat) = 999 + 1 := rfl
  rw [c9cache, c9tail, h, List.range_succ_eq_map]
  simp [List.map_map, Function.comp]

theorem c9cache_keys_nodup : (c9cache.map Prod.fst).Nodup := by
  have h : c9cache.map Prod.fst = (List.range 1000).map c9key := by
    simp [c9cache, List.map_map, Function.comp]
  rw [h]
  exact (List.nodup_range 1000).map c9key_injective

/-- C9 counterexample: with the cache at `CACHE_SIZE` entries whose
oldest key is `""` (= `c9key 0`), re-inserting that same oldest URL
first evicts it and then re-appends it, so it moves from the very front
of the eviction order (`head?`) to the very back (`getLast?`): the
claim's "re-inserting an existing URL never moves it later in the
eviction order" is false. -/
theorem c9_reinsert_counterexample :
    (c9cache.map Prod.fst).head? = some "" ∧
    (add_to_cache CACHE_SIZE c9cache "" examplePage).map
        (fun r => ((r.map Prod.fst).head?, (r.map Prod.fst).getLast?))
      = some (some (c9key 1), some "") ∧
    c9key 1 ≠ "" := by
  have hkey0 : c9key 0 = "" := rfl
  have hnotmem : "" ∉ c9tail.map Prod.fst := by
    simp only [c9tail, List.map_map, Function.comp, List.mem_map, List.mem_range]
    rintro ⟨i, -, hcon⟩
    have : i + 1 = 0 := c9key_injective (by rw [hcon, hkey0])
    omega
  have htail_ne : c9tail = (c9key 1, examplePage) ::
      ((List.range 998).map (fun i => (c9key (i + 2), examplePage))) := by
    have h : (999 : Nat) = 998 + 1 := rfl
    rw [c9tail, h, List.range_succ_eq_map]
    simp [List.map_map, Function.comp]
  have hstep : add_to_cache CACHE_SIZE c9cache "" examplePage
      = some (c9tail ++ [("", examplePage)]) := by
    rw [c9cache_eq]
    unfold add_to_cache
    rw [if_pos (by simp [c9tail, CACHE_SIZE])]
    show some (dictInsert c9tail "" examplePage) = _
    rw [dictInsert_of_not_mem c9tail "" examplePage hnotmem]
  refine ⟨?_, ?_, ?_⟩
  · rw [c9cache_eq]
    simp [hkey0]
  · rw [hstep]
    have hgl : ((c9tail ++ [("", examplePage)]).map Prod.fst).getLast? = some "" := by
      rw [List.map_append]
      simp [List.getLast?_concat]
    have hhd : ((c9tail ++ [("", examplePage)]).map Prod.fst).head? = some (c9key 1) := by
      rw [htail_ne]
      simp
    show some (((c9tail ++ [("", examplePage)]).map Prod.fst).head?,
      ((c9tail ++ [("", examplePage)]).map Prod.fst).getLast?) = some (some (c9key 1), some "")
    rw [hhd, hgl]
  · decide

/-- Witness for `c9_reinsert_amended`: the concrete full cache
`c9cache`, re-inserting the second-oldest key `c9key 1`. -/
theorem c9_reinsert_witness :
    ∃ r, add_to_cache CACHE_SIZE ((c9key 0, examplePage) :: c9tail) (c9key 1) examplePage
        = some r ∧
      (c9key 1 ≠ c9key 0 → r.map Prod.fst = c9tail.map Prod.fst ∧ r.length = CACHE_SIZE - 1) ∧
      (c9key 1 = c9key 0 → r.map Prod.fst = c9tail.map Prod.fst ++ [c9key 1]) :=
  c9_reinsert_amended (c9key 0) examplePage c9tail (c9key 1) examplePage
    (by simp [c9tail, CACHE_SIZE])
    (by rw [← c9cache_eq]; exact c9cache_keys_nodup)
    (by
      rw [← c9cache_eq]
      have : c9cache.map Prod.fst = (List.range 1000).map c9key := by
        simp [c9cache, List.map_map, Function.comp]
      rw [this]
      exact List.mem_map_of_mem c9key (List.mem_range.mpr (by omega)))

/-! ## C6: relevance is non-negative and monotone in content occurrences -/

theorem countOcc_nil {α : Type} [DecidableEq α] (needle : List α) :
    countOcc needle [] = if needle.isEmpty then 1 else 0 := by
  by_cases hemp : needle.isEmpty <;> simp [countOcc, countOccGo, hemp]

theorem countOcc_cons {α : Type} [DecidableEq α] (needle : List α) (a : α) (t : List α) :
    countOcc needle (a :: t) =
      if needle.isEmpty then t.length + 2
      else if needle.isPrefixOf (a :: t) then
        1 + countOcc needle ((a :: t).drop needle.length)
      else countOcc needle t := by
  by_cases hemp : needle.isEmpty
  · simp [countOcc, hemp]
  · have hlen : ∃ m, needle.length = m + 1 := by
      cases needle with
      | nil => simp at hemp
      | cons b s => exact ⟨s.length, rfl⟩
    obtain ⟨m, hm⟩ := hlen
    simp only [countOcc, hemp, Bool.false_eq_true, if_false]
    rw [show countOccGo needle (a :: t) 0
        = (if needle.isPrefixOf (a :: t) then 1 + countOccGo needle t (needle.length - 1)
           else countOccGo needle t 0) from rfl]
    by_cases hp : needle.isPrefixOf (a :: t)
    · rw [if_pos hp, if_pos hp]
      rw [countOccGo_drop needle t (needle.length - 1)]
      rw [hm]
      simp [List.drop_succ_cons]
    · rw [if_neg hp, if_neg hp]

theorem countOcc_eq_zero_of_short {α : Type} [DecidableEq α] (needle : List α) :
    ∀ hay : List α, hay.length < needle.length → countOcc needle hay = 0 := by
  intro hay
  induction hay with
  | nil =>
    intro h
    have hemp : needle.isEmpty = false := by
      cases needle with
      | nil => simp at h
      | cons a t => rfl
    simp [countOcc_nil, hemp]
  | cons a t ih =>
    intro h
    have hemp : needle.isEmpty = false := by
      cases needle with
      | nil => simp at h
      | cons b s => rfl
    have hnp : needle.isPrefixOf (a :: t) = false := by
      by_contra hcon
      have hp : needle.isPrefixOf (a :: t) = true := by
        cases hval : needle.isPrefixOf (a :: t) with
        | false => exact absurd hval hcon
        | true => rfl
      have hlenle := (List.isPrefixOf_iff_prefix.mp hp).length_le
      simp only [List.length_cons] at hlenle h
      omega
    rw [countOcc_cons]
    simp only [hemp, hnp, Bool.false_eq_true, if_false]
    exact ih (by simp only [List.length_cons] at h; omega)

theorem countOcc_le_append {α : Type} [DecidableEq α] (needle : List α) :
    ∀ (n : Nat) (h e : List α), h.length ≤ n →
      countOcc needle h ≤ countOcc needle (h ++ e) := by
  intro n
  induction n with
  | zero =>
    intro h e hle
    have hnil : h = [] := List.eq_nil_of_length_eq_zero (by omega)
    subst hnil
    by_cases hemp : needle.isEmpty
    · simp only [List.nil_append, countOcc_nil, hemp, if_true]
      cases e with
      | nil => simp [countOcc_nil, hemp]
      | cons b s => simp [countOcc_cons, hemp]
    · simp [List.nil_append, countOcc_nil, hemp]
  | succ n ih =>
    intro h e hle
    cases h with
    | nil =>
      by_cases hemp : needle.isEmpty
      · simp only [List.nil_append, countOcc_nil, hemp, if_true]
        cases e with
        | nil => simp [countOcc_nil, hemp]
        | cons b s => simp [countOcc_cons, hemp]
      · simp [List.nil_append, countOcc_nil, hemp]
    | cons a t =>
      by_cases hemp : needle.isEmpty
      · rw [show ((a :: t) ++ e : List α) = a :: (t ++ e) by simp]
        rw [countOcc_cons, countOcc_cons]
        simp [hemp]
      · have hpos : 1 ≤ needle.length := by
          cases needle with
          | nil => simp at hemp
          | cons b s => simp
        by_cases hp : needle.isPrefixOf (a :: t)
        · have hp' : needle.isPrefixOf ((a :: t) ++ e) := by
            rw [List.isPrefixOf_iff_prefix] at hp ⊢
            exact hp.trans (List.prefix_append _ _)
          have hlen_le : needle.length ≤ (a :: t).length :=
            (List.isPrefixOf_iff_prefix.mp hp).length_le
          have hcons_append : ((a :: t) ++ e : List α) = a :: (t ++ e) := by simp
          rw [countOcc_cons]
          rw [show countOcc needle ((a :: t) ++ e) = countOcc needle (a :: (t ++ e)) by
            rw [hcons_append]]
          rw [countOcc_cons]
          have hp'' : needle.isPrefixOf (a :: (t ++ e)) := by
            rw [← hcons_append]
            exact hp'
          simp only [hemp, hp, hp'', Bool.false_eq_true, if_false, if_true]
          have hdrop : (a :: (t ++ e)).drop needle.length
              = ((a :: t).drop needle.length) ++ e := by
            rw [← hcons_append]
            exact List.drop_append_of_le_length hlen_le
          rw [hdrop]
          have hlen' : ((a :: t).drop needle.length).length ≤ n := by
            simp only [List.length_drop, List.length_cons]
            simp only [List.length_cons] at hle
            omega
          exact Nat.add_le_add_left (ih _ e hlen') 1
        · by_cases hpe : needle.isPrefixOf ((a :: t) ++ e)
          · have hshort : (a :: t).length < needle.length := by
              by_contra hcon
              push_neg at hcon
              have hpre : needle <+: (a :: t) :=
                List.prefix_of_prefix_length_le (List.isPrefixOf_iff_prefix.mp hpe)
                  (List.prefix_append _ _) hcon
              exact absurd (List.isPrefixOf_iff_prefix.mpr hpre) (by simp [hp])
            rw [countOcc_eq_zero_of_short needle (a :: t) hshort]
            exact Nat.zero_le _
          · have hcons_append : ((a :: t) ++ e : List α) = a :: (t ++ e) := by simp
            have hpB : needle.isPrefixOf (a :: t) = false := by
              cases hval : needle.isPrefixOf (a :: t) with
              | false => rfl
              | true => exact absurd hval hp
            have hpeB : needle.isPrefixOf (a :: (t ++ e)) = false := by
              cases hval : needle.isPrefixOf (a :: (t ++ e)) with
              | false => rfl
              | true =>
                rw [← hcons_append] at hval
                exact absurd hval hpe
            rw [countOcc_cons]
            rw [show countOcc needle ((a :: t) ++ e) = countOcc needle (a :: (t ++ e)) by
              rw [hcons_append]]
            rw [countOcc_cons]
            simp only [hemp, hpB, hpeB, Bool.false_eq_true, if_false]
            exact ih t e (by simp only [List.length_cons] at hle; omega)

theorem pyCount_le_append (sub s ext : String) :
    pyCount sub s ≤ pyCount sub (s ++ ext) := by
  have hdata : (s ++ ext).data = s.data ++ ext.data := rfl
  unfold pyCount
  rw [hdata]
  exact countOcc_le_append sub.data s.data.length s.data ext.data (le_refl _)

theorem pyLower_append (s t : String) : pyLower (s ++ t) = pyLower s ++ pyLower t := by
  have hdata : (s ++ t).data = s.data ++ t.data := rfl
  unfold pyLower
  rw [hdata, List.map_append]
  rfl

theorem mapSum_le_mapSum {l : List String} {f g : String → Nat}
    (h : ∀ x ∈ l, f x ≤ g x) : (l.map f).sum ≤ (l.map g).sum := by
  induction l with
  | nil => simp
  | cons a t ih =>
    simp only [List.map_cons, List.sum_cons]
    have := h a (by simp)
    have ht := ih (fun x hx => h x (by simp [hx]))
    omega

/-- C6: `calculate_relevance` always returns a non-negative integer,
and — holding the query, the title, the URL and the rest of the content
fixed — it never decreases when more text (in particular, more
occurrences of query words) is appended to the content.  Every scoring
signal is a count weighted by a positive constant, and Python's
left-to-right non-overlapping substring count can only grow when the
haystack is extended on the right. -/
theorem c6_relevance_nonneg_monotone (query : String) (page : Page) (ext : String) :
    0 ≤ calculate_relevance query page ∧
    calculate_relevance query page ≤
      calculate_relevance query { page with content := page.content ++ ext } := by
  obtain ⟨u, ti, co, li, su⟩ := page
  constructor
  · unfold calculate_relevance
    dsimp only
    split_ifs <;> omega
  · unfold calculate_relevance
    dsimp only
    rw [pyLower_append]
    have hcem : pyCount (pyLower query) (pyLower co)
        ≤ pyCount (pyLower query) (pyLower co ++ pyLower ext) :=
      pyCount_le_append _ _ _
    have hcwm : ((pySplitWs (pyLower query)).map (fun w => pyCount w (pyLower co))).sum
        ≤ ((pySplitWs (pyLower query)).map (fun w => pyCount w (pyLower co ++ pyLower ext))).sum :=
      mapSum_le_mapSum (fun w _ => pyCount_le_append _ _ _)
    have hboost : ((memcache_keywords.map (fun k => pyCount k (pyLower co) * 50)).sum
        ≤ (memcache_keywords.map (fun k => pyCount k (pyLower co ++ pyLower ext) * 50)).sum) :=
      mapSum_le_mapSum (fun k _ => Nat.mul_le_mul_right 50 (pyCount_le_append _ _ _))
    split_ifs <;> omega

/-! ## C7: the `is_docs_url` deny-list policy -/

/-- C7 (amended): the policy is a deny-list *plus* a minimal-path
requirement.  For every URL on the documentation host whose lowercased
path triggers none of the excluded patterns, none of the excluded
extensions and none of the internal asset markers, **and** whose path
starts with `/` and is longer than one character, `is_docs_url` returns
true.  The extra requirement is real: see
`c7_denylist_counterexample`. -/
theorem c7_denylist_amended (url : String)
    (hhost : urlNetloc url = urlNetloc DRUPAL_BASE_URL)
    (hpat : excluded_patterns.any (fun p => pyContains p (pyLower (urlPath url))) = false)
    (hext : excluded_extensions.any (fun e => pyEndsWith e (pyLower (urlPath url))) = false)
    (hprob : problem_patterns.any (fun p => pyContains p (pyLower (urlPath url))) = false)
    (hslash : pyStartsWith "/" (pyLower (urlPath url)) = true)
    (hlen : 1 < (pyLower (urlPath url)).length) :
    is_docs_url url = true := by
  have hlenB : decide (1 < (pyLower (urlPath url)).length) = true := decide_eq_true hlen
  unfold is_docs_url
  rw [if_pos hhost]
  simp only [hpat, hext, hslash, hlenB, Bool.false_eq_true, if_false, Bool.true_and, if_true]
  simp [hprob]

/-- C7 counterexample: the claim as stated is false.  The root URL
`https://docs.acquia.com/` is on the documentation host and its path
`/` contains no excluded pattern, ends in no excluded extension and
contains no internal asset marker, yet `is_docs_url` rejects it,
because the code additionally requires `len(path) > 1`. -/
theorem c7_denylist_counterexample :
    urlNetloc "https://docs.acquia.com/" = urlNetloc DRUPAL_BASE_URL ∧
    (excluded_patterns.any
      (fun p => pyContains p (pyLower (urlPath "https://docs.acquia.com/"))) = false) ∧
    (excluded_extensions.any
      (fun e => pyEndsWith e (pyLower (urlPath "https://docs.acquia.com/"))) = false) ∧
    (problem_patterns.any
      (fun p => pyContains p (pyLower (urlPath "https://docs.acquia.com/"))) = false) ∧
    is_docs_url "https://docs.acquia.com/" = false := by
  refine ⟨rfl, ?_, ?_, ?_, ?_⟩ <;> decide

/-- Witness for `c7_denylist_amended` at a concrete in-scope URL. -/
theorem c7_denylist_witness :
    is_docs_url "https://docs.acquia.com/site-factory" = true :=
  c7_denylist_amended "https://docs.acquia.com/site-factory"
    (by decide) (by decide) (by decide) (by decide) (by decide) (by decide)

/-! ## C4: the per-category budget is never exceeded -/

/-- One crawl step preserves `counts ≤ MAX_PAGES_PER_PRODUCT`: a count
is only incremented after the `>=` budget check has failed, so it can
reach but never exceed the limit. -/
theorem crawlStep_counts_le (f : String → Page) (max_depth : Nat) (s : CrawlState)
    (h : ∀ pa, s.counts pa ≤ MAX_PAGES_PER_PRODUCT) :
    ∀ pa, (crawlStep f max_depth s).counts pa ≤ MAX_PAGES_PER_PRODUCT := by
  intro pa
  unfold crawlStep
  cases hv : s.toVisit with
  | nil => exact h pa
  | cons item rest =>
    obtain ⟨url, depth, hint⟩ := item
    by_cases h1 : url ∈ s.visited ∨ max_depth < depth
    · simp only [h1, if_true]
      exact h pa
    · simp only [h1, if_false]
      by_cases h2 : MAX_PAGES_PER_PRODUCT ≤ s.counts (get_product_area url)
      · simp only [h2, if_true]
        exact h pa
      · simp only [h2, if_false]
        push_neg at h2
        have hupd : ∀ q : String,
            Function.update s.counts (get_product_area url)
              (s.counts (get_product_area url) + 1) q ≤ MAX_PAGES_PER_PRODUCT := by
          intro q
          rw [Function.update_apply]
          split_ifs with hq
          · omega
          · exact h q
        split_ifs <;> exact hupd pa

/-- C4: for every seed list, every `max_depth` and every fetcher
behaviour, at every point of the `crawl_docs` loop (i.e. after any
number of loop iterations) and for every category, the
`product_page_counts` entry never exceeds `MAX_PAGES_PER_PRODUCT`. -/
theorem c4_category_budget_invariant (f : String → Page) (max_depth : Nat)
    (start_urls : List String) (k : Nat) (pa : String) :
    ((crawlStep f max_depth)^[k] (initCrawlState start_urls)).counts pa
      ≤ MAX_PAGES_PER_PRODUCT := by
  have hall : ∀ m q, ((crawlStep f max_depth)^[m] (initCrawlState start_urls)).counts q
      ≤ MAX_PAGES_PER_PRODUCT := by
    intro m
    induction m with
    | zero =>
      intro q
      simp [initCrawlState]
    | succ m ihm =>
      intro q
      rw [Function.iterate_succ_apply']
      exact crawlStep_counts_le f max_depth _ ihm q
  exact hall k pa

/-! ## C8: visited-marking and budget-charging happen before the fetch -/

/-- A fetcher whose every fetch fails. -/
def allFailFetcher : String → Page :=
  fun u => { url := u, title := "t", content := "c", links := [], success := false }

/-- C8: in the crawl loop, a URL is marked visited and its category
budget incremented before its fetch is attempted, so a URL whose fetch
fails still consumes one budget unit and adds nothing to the result
map; and any later pop of a visited URL is skipped without any other
state change, so the URL is never re-attempted in the same run. -/
theorem c8_failed_fetch_consumes_budget (f : String → Page) (max_depth : Nat)
    (s : CrawlState) (url : String) (depth : Nat) (hint : String)
    (rest : List (String × Nat × String))
    (hfront : s.toVisit = (url, depth, hint) :: rest)
    (hnv : url ∉ s.visited) (hd : depth ≤ max_depth)
    (hb : s.counts (get_product_area url) < MAX_PAGES_PER_PRODUCT)
    (hfail : (f url).success = false) :
    (crawlStep f max_depth s).visited = insert url s.visited ∧
    (crawlStep f max_depth s).counts (get_product_area url)
      = s.counts (get_product_area url) + 1 ∧
    (crawlStep f max_depth s).pages = s.pages ∧
    (crawlStep f max_depth s).toVisit = rest ∧
    (∀ (s' : CrawlState) (d' : Nat) (h' : String) (rest' : List (String × Nat × String)),
      s'.toVisit = (url, d', h') :: rest' → url ∈ s'.visited →
      (crawlStep f max_depth s').visited = s'.visited ∧
      (crawlStep f max_depth s').toVisit = rest' ∧
      (crawlStep f max_depth s').pages = s'.pages ∧
      (crawlStep f max_depth s').counts = s'.counts) := by
  have hstep : crawlStep f max_depth s =
      { s with
        visited := insert url s.visited
        toVisit := rest
        counts := Function.update s.counts (get_product_area url)
          (s.counts (get_product_area url) + 1) } := by
    unfold crawlStep
    rw [hfront]
    dsimp only
    rw [if_neg (by
      rintro (h | h)
      · exact hnv h
      · omega)]
    rw [if_neg (by omega)]
    rw [if_neg (by simp [hfail])]
  refine ⟨by rw [hstep], by rw [hstep]; exact Function.update_same _ _ _, by rw [hstep],
    by rw [hstep], ?_⟩
  intro s' d' h' rest' hfront' hmem
  have hstep' : crawlStep f max_depth s' = { s' with toVisit := rest' } := by
    unfold crawlStep
    rw [hfront']
    dsimp only
    rw [if_pos (Or.inl hmem)]
  exact ⟨by rw [hstep'], by rw [hstep'], by rw [hstep'], by rw [hstep']⟩

/-- Witness for `c8_failed_fetch_consumes_budget`: one seed whose fetch
fails. -/
theorem c8_failed_fetch_witness :
    (crawlStep allFailFetcher 0 (initCrawlState ["u"])).visited
        = insert "u" (initCrawlState ["u"]).visited ∧
    (crawlStep allFailFetcher 0 (initCrawlState ["u"])).counts (get_product_area "u")
        = (initCrawlState ["u"]).counts (get_product_area "u") + 1 ∧
    (crawlStep allFailFetcher 0 (initCrawlState ["u"])).pages = (initCrawlState ["u"]).pages ∧
    (crawlStep allFailFetcher 0 (initCrawlState ["u"])).toVisit = [] ∧
    (∀ (s' : CrawlState) (d' : Nat) (h' : String) (rest' : List (String × Nat × String)),
      s'.toVisit = ("u", d', h') :: rest' → "u" ∈ s'.visited →
      (crawlStep allFailFetcher 0 s').visited = s'.visited ∧
      (crawlStep allFailFetcher 0 s').toVisit = rest' ∧
      (crawlStep allFailFetcher 0 s').pages = s'.pages ∧
      (crawlStep allFailFetcher 0 s').counts = s'.counts) :=
  c8_failed_fetch_consumes_budget allFailFetcher 0 (initCrawlState ["u"]) "u" 0 "main" []
    rfl (Finset.not_mem_empty "u") (le_refl 0) (by decide) rfl

/-! ## C10: the frontier never holds duplicates or visited URLs -/

/-- Popping the head `url` and inserting it into `visited` keeps the
rest of the frontier disjoint from the visited set. -/
theorem rest_disjoint_insert (url : String) (rest : List (String × Nat × String))
    (visited : Finset String)
    (hnotin : url ∉ rest.map (fun it => it.1))
    (hdisj : ∀ it ∈ rest, it.1 ∉ visited) :
    ∀ it ∈ rest, it.1 ∉ insert url visited := by
  intro it hit
  rw [Finset.mem_insert]
  rintro (h | h)
  · exact hnotin (h ▸ List.mem_map_of_mem _ hit)
  · exact hdisj it hit h

/-- One crawl step preserves the frontier invariant: pairwise-distinct
frontier URLs, none of them visited — provided every fetched page
reports duplicate-free links (which `fetch_page` guarantees via
`list(set(links))`). -/
theorem crawlStep_frontier_inv (f : String → Page) (max_depth : Nat)
    (hlinks : ∀ u, (f u).links.Nodup) (s : CrawlState)
    (hnd : (s.toVisit.map (fun it => it.1)).Nodup)
    (hdisj : ∀ it ∈ s.toVisit, it.1 ∉ s.visited) :
    ((crawlStep f max_depth s).toVisit.map (fun it => it.1)).Nodup ∧
    ∀ it ∈ (crawlStep f max_depth s).toVisit, it.1 ∉ (crawlStep f max_depth s).visited := by
  unfold crawlStep
  cases hv : s.toVisit with
  | nil => exact ⟨hnd, hdisj⟩
  | cons item rest =>
    obtain ⟨url, depth, hint⟩ := item
    rw [hv] at hnd hdisj
    simp only [List.map_cons, List.nodup_cons] at hnd
    have hrest_disj : ∀ it ∈ rest, it.1 ∉ s.visited := fun it hit => hdisj it (by simp [hit])
    by_cases h1 : url ∈ s.visited ∨ max_depth < depth
    · simp only [h1, if_true]
      exact ⟨hnd.2, fun it hit => hrest_disj it hit⟩
    · simp only [h1, if_false]
      by_cases h2 : MAX_PAGES_PER_PRODUCT ≤ s.counts (get_product_area url)
      · simp only [h2, if_true]
        exact ⟨hnd.2, fun it hit => hrest_disj it hit⟩
      · simp only [h2, if_false]
        have hrest_ins : ∀ it ∈ rest, it.1 ∉ insert url s.visited :=
          rest_disjoint_insert url rest s.visited hnd.1 hrest_disj
        by_cases h3 : (f url).success
        · by_cases h4 : depth < max_depth
          · simp only [h3, h4, if_true]
            -- the expansion case
            set vis' := insert url s.visited with hvis'
            set restKeys := rest.map (fun it => it.1) with hrk
            set fresh := (f url).links.filter
              (fun link => decide (link ∉ vis') && decide (link ∉ restKeys)) with hfreshdef
            have hfresh_mem : ∀ l ∈ fresh, l ∉ vis' ∧ l ∉ restKeys := by
              intro l hl
              rw [hfreshdef, List.mem_filter] at hl
              simpa using hl.2
            have hfresh_nodup : fresh.Nodup := (hlinks url).filter _
            set same := fresh.filter
              (fun link => decide (get_product_area link = get_product_area url)) with hsamedef
            set other := fresh.filter
              (fun link => decide (¬ get_product_area link = get_product_area url)) with hotherdef
            have hsame_sub : ∀ l ∈ same.take 25, l ∈ fresh := by
              intro l hl
              exact List.mem_of_mem_filter (List.mem_of_mem_take hl)
            have hother_sub : ∀ l ∈ other.take 8, l ∈ fresh := by
              intro l hl
              exact List.mem_of_mem_filter (List.mem_of_mem_take hl)
            have hsame_nodup : (same.take 25).Nodup :=
              (hfresh_nodup.filter _).sublist (List.take_sublist _ _)
            have hother_nodup : (other.take 8).Nodup :=
              (hfresh_nodup.filter _).sublist (List.take_sublist _ _)
            have hsame_other_disj : ∀ l ∈ same.take 25, l ∉ other.take 8 := by
              intro l hl hmem
              have h5 := List.mem_filter.mp (List.mem_of_mem_take hl)
              have h6 := List.mem_filter.mp (List.mem_of_mem_take hmem)
              simp only [decide_eq_true_eq] at h5 h6
              exact h6.2 h5.2
            constructor
            · -- keys of the new frontier are Nodup
              simp only [List.map_append, List.map_map]
              have hkey1 : (same.take 25).map
                  ((fun it : String × Nat × String => it.1) ∘
                    (fun link => (link, depth + 1, get_product_area url))) = same.take 25 := by
                rw [show ((fun it : String × Nat × String => it.1) ∘
                    (fun link => (link, depth + 1, get_product_area url)))
                  = fun l : String => l from rfl]
                simp
              have hkey2 : (other.take 8).map
                  ((fun it : String × Nat × String => it.1) ∘
                    (fun link => (link, depth + 1, get_product_area link))) = other.take 8 := by
                rw [show ((fun it : String × Nat × String => it.1) ∘
                    (fun link => (link, depth + 1, get_product_area link)))
                  = fun l : String => l from rfl]
                simp
              rw [hkey1, hkey2]
              rw [List.append_assoc, List.nodup_append]
              refine ⟨hnd.2, ?_, ?_⟩
              · rw [List.nodup_append]
                exact ⟨hsame_nodup, hother_nodup, fun l hl => hsame_other_disj l hl⟩
              · intro l hl
                rw [List.mem_append]
                rintro (h | h)
                · exact (hfresh_mem l (hsame_sub l h)).2 hl
                · exact (hfresh_mem l (hother_sub l h)).2 hl
            · -- no frontier key is visited
              intro it hit
              simp only [List.mem_append] at hit
              rcases hit with (hit | hit) | hit
              · exact hrest_ins it hit
              · obtain ⟨l, hl, rfl⟩ := List.mem_map.mp hit
                exact (hfresh_mem l (hsame_sub l hl)).1
              · obtain ⟨l, hl, rfl⟩ := List.mem_map.mp hit
                exact (hfresh_mem l (hother_sub l hl)).1
          · simp only [h3, h4, if_true, if_false]
            exact ⟨hnd.2, fun it hit => hrest_ins it hit⟩
        · simp only [h3, Bool.false_eq_true, if_false]
          exact ⟨hnd.2, fun it hit => hrest_ins it hit⟩

/-- C10: throughout every `crawl_docs` run whose seeds are distinct and
whose fetcher returns duplicate-free link lists (as `fetch_page` does),
the frontier never contains two items with the same URL and never
contains a URL that is already in the visited set: links are
deduplicated against both at enqueue time. -/
theorem c10_frontier_dedup (f : String → Page) (max_depth : Nat) (start_urls : List String)
    (hseeds : start_urls.Nodup) (hlinks : ∀ u, (f u).links.Nodup) (k : Nat) :
    (((crawlStep f max_depth)^[k] (initCrawlState start_urls)).toVisit.map
      (fun it => it.1)).Nodup ∧
    ∀ it ∈ ((crawlStep f max_depth)^[k] (initCrawlState start_urls)).toVisit,
      it.1 ∉ ((crawlStep f max_depth)^[k] (initCrawlState start_urls)).visited := by
  induction k with
  | zero =>
    simp only [Function.iterate_zero, id_eq]
    constructor
    · rw [show (initCrawlState start_urls).toVisit
          = start_urls.map (fun u => (u, 0, "main")) from rfl]
      rw [List.map_map]
      rw [show ((fun it : String × Nat × String => it.1) ∘ fun u => (u, 0, "main"))
          = fun u : String => u from rfl]
      simpa using hseeds
    · intro it hit
      simp [initCrawlState]
  | succ k ih =>
    rw [Function.iterate_succ_apply']
    exact crawlStep_frontier_inv f max_depth hlinks _ ih.1 ih.2

/-- Witness for `c10_frontier_dedup`: the default seed list with the
all-failing fetcher, after two loop iterations. -/
theorem c10_frontier_dedup_witness :
    (((crawlStep allFailFetcher 5)^[2] (initCrawlState defaultSeeds)).toVisit.map
      (fun it => it.1)).Nodup ∧
    ∀ it ∈ ((crawlStep allFailFetcher 5)^[2] (initCrawlState defaultSeeds)).toVisit,
      it.1 ∉ ((crawlStep allFailFetcher 5)^[2] (initCrawlState defaultSeeds)).visited :=
  c10_frontier_dedup allFailFetcher 5 defaultSeeds (by decide)
    (fun _ => List.nodup_nil) 2

/-! ## C5: the crawl loop terminates; failed fetches are skips -/

theorem reachLevel_subset_succ (f : String → Page) (seeds : List String) (k : Nat) :
    reachLevel f seeds k ⊆ reachLevel f seeds (k + 1) := by
  intro x hx
  unfold reachLevel
  exact List.mem_append_left _ hx

theorem reachLevel_mono (f : String → Page) (seeds : List String) :
    ∀ {i j : Nat}, i ≤ j → reachLevel f seeds i ⊆ reachLevel f seeds j := by
  intro i j hij
  induction j with
  | zero =>
    have : i = 0 := by omega
    subst this
    exact fun x hx => hx
  | succ j ihj =>
    rcases Nat.eq_or_lt_of_le hij with heq | hlt
    · subst heq
      exact fun x hx => hx
    · exact fun x hx => reachLevel_subset_succ f seeds j (ihj (by omega) hx)

theorem links_subset_reachLevel (f : String → Page) (seeds : List String) (k : Nat)
    (u : String) (hu : u ∈ reachLevel f seeds k) :
    ∀ l ∈ (f u).links, l ∈ reachLevel f seeds (k + 1) := by
  intro l hl
  unfold reachLevel
  apply List.mem_append_right
  rw [List.mem_flatten]
  exact ⟨(f u).links, List.mem_map_of_mem _ hu, hl⟩

/-- The invariant that powers the termination argument: every frontier
item at legal depth `d` is reachable in `d` steps, and every visited URL
is reachable within `max_depth` steps. -/
def FrontierOk (f : String → Page) (seeds : List String) (max_depth : Nat)
    (s : CrawlState) : Prop :=
  (∀ it ∈ s.toVisit, it.2.1 ≤ max_depth → it.1 ∈ reachLevel f seeds it.2.1) ∧
  (∀ u ∈ s.visited, u ∈ reachLevel f seeds max_depth)

/-- The termination measure: each step either pops one frontier item
without visiting (measure drops by 1) or visits a fresh URL of the
finite reachable universe while enqueueing at most 33 new items
(measure drops by at least 1 thanks to the factor 34). -/
def crawlMeasure (f : String → Page) (seeds : List String) (max_depth : Nat)
    (s : CrawlState) : Nat :=
  34 * ((reachLevel f seeds max_depth).toFinset.card + 1 - s.visited.card) + s.toVisit.length

theorem crawlStep_measure (f : String → Page) (seeds : List String) (max_depth : Nat)
    (s : CrawlState) (hok : FrontierOk f seeds max_depth s) (hne : s.toVisit ≠ []) :
    FrontierOk f seeds max_depth (crawlStep f max_depth s) ∧
    crawlMeasure f seeds max_depth (crawlStep f max_depth s)
      < crawlMeasure f seeds max_depth s := by
  obtain ⟨hfr, hvis⟩ := hok
  unfold crawlStep
  cases hv : s.toVisit with
  | nil => exact absurd hv hne
  | cons item rest =>
    obtain ⟨url, depth, hint⟩ := item
    rw [hv] at hfr
    have hrest_fr : ∀ it ∈ rest, it.2.1 ≤ max_depth → it.1 ∈ reachLevel f seeds it.2.1 :=
      fun it hit => hfr it (by simp [hit])
    have hlen : s.toVisit.length = rest.length + 1 := by rw [hv]; rfl
    by_cases h1 : url ∈ s.visited ∨ max_depth < depth
    · simp only [h1, if_true]
      refine ⟨⟨hrest_fr, hvis⟩, ?_⟩
      unfold crawlMeasure
      simp only [hlen]
      omega
    · simp only [h1, if_false]
      push_neg at h1
      obtain ⟨hnv, hdle⟩ := h1
      have hdle' : depth ≤ max_depth := by omega
      have hurl_d : url ∈ reachLevel f seeds depth := hfr (url, depth, hint) (by simp) hdle'
      have hurl_D : url ∈ reachLevel f seeds max_depth := reachLevel_mono f seeds hdle' hurl_d
      have hsub : s.visited ⊆ (reachLevel f seeds max_depth).toFinset := by
        intro u hu
        rw [List.mem_toFinset]
        exact hvis u hu
      have hsub' : insert url s.visited ⊆ (reachLevel f seeds max_depth).toFinset := by
        intro u hu
        rw [Finset.mem_insert] at hu
        rcases hu with rfl | hu
        · rw [List.mem_toFinset]
          exact hurl_D
        · exact hsub hu
      have hcard' : (insert url s.visited).card = s.visited.card + 1 :=
        Finset.card_insert_of_not_mem hnv
      have hcard_le : (insert url s.visited).card
          ≤ (reachLevel f seeds max_depth).toFinset.card :=
        Finset.card_le_card hsub'
      have hvis' : ∀ u ∈ insert url s.visited, u ∈ reachLevel f seeds max_depth := by
        intro u hu
        rw [Finset.mem_insert] at hu
        rcases hu with rfl | hu
        · exact hurl_D
        · exact hvis u hu
      by_cases h2 : MAX_PAGES_PER_PRODUCT ≤ s.counts (get_product_area url)
      · simp only [h2, if_true]
        refine ⟨⟨hrest_fr, hvis⟩, ?_⟩
        unfold crawlMeasure
        simp only [hlen]
        omega
      · simp only [h2, if_false]
        by_cases h3 : (f url).success
        · by_cases h4 : depth < max_depth
          · simp only [h3, h4, if_true]
            constructor
            · constructor
              · intro it hit
                simp only [List.mem_append] at hit
                rcases hit with (hit | hit) | hit
                · exact hrest_fr it hit
                · obtain ⟨l, hl, rfl⟩ := List.mem_map.mp hit
                  intro _
                  exact links_subset_reachLevel f seeds depth url hurl_d l
                    (List.mem_of_mem_filter (List.mem_of_mem_filter (List.mem_of_mem_take hl)))
                · obtain ⟨l, hl, rfl⟩ := List.mem_map.mp hit
                  intro _
                  exact links_subset_reachLevel f seeds depth url hurl_d l
                    (List.mem_of_mem_filter (List.mem_of_mem_filter (List.mem_of_mem_take hl)))
              · exact hvis'
            · unfold crawlMeasure
              have hlen1 : ∀ (l : List String) (g : String → String × Nat × String) (n : Nat),
                  ((l.take n).map g).length ≤ n := by
                intro l g n
                rw [List.length_map]
                exact List.length_take_le n l
              have ha := hlen1 ((((f url).links.filter
                (fun link => decide (link ∉ insert url s.visited) &&
                  decide (link ∉ rest.map (fun it => it.1)))).filter
                    (fun link => decide (get_product_area link = get_product_area url))))
                (fun link => (link, depth + 1, get_product_area url)) 25
              have hb := hlen1 ((((f url).links.filter
                (fun link => decide (link ∉ insert url s.visited) &&
                  decide (link ∉ rest.map (fun it => it.1)))).filter
                    (fun link => decide (¬ get_product_area link = get_product_area url))))
                (fun link => (link, depth + 1, get_product_area link)) 8
              simp only [List.length_append, hlen, hcard']
              omega
          · simp only [h3, h4, if_true, if_false]
            refine ⟨⟨hrest_fr, hvis'⟩, ?_⟩
            unfold crawlMeasure
            simp only [hlen, hcard']
            omega
        · simp only [h3, Bool.false_eq_true, if_false]
          refine ⟨⟨hrest_fr, hvis'⟩, ?_⟩
          unfold crawlMeasure
          simp only [hlen, hcard']
          omega

theorem crawl_terminates_aux (f : String → Page) (seeds : List String) (max_depth : Nat) :
    ∀ (n : Nat) (s : CrawlState), crawlMeasure f seeds max_depth s ≤ n →
      FrontierOk f seeds max_depth s →
      ∃ m, ((crawlStep f max_depth)^[m] s).toVisit = [] := by
  intro n
  induction n with
  | zero =>
    intro s hm _
    refine ⟨0, ?_⟩
    simp only [Function.iterate_zero, id_eq]
    unfold crawlMeasure at hm
    exact List.eq_nil_of_length_eq_zero (by omega)
  | succ n ih =>
    intro s hm hok
    by_cases hne : s.toVisit = []
    · exact ⟨0, by simpa using hne⟩
    · obtain ⟨hok', hlt⟩ := crawlStep_measure f seeds max_depth s hok hne
      obtain ⟨m, hm'⟩ := ih (crawlStep f max_depth s) (by omega) hok'
      exact ⟨m + 1, by rw [Function.iterate_succ_apply]; exact hm'⟩

/-- C5: for every finite seed list, every `max_depth` and every fetcher
behaviour (finitely many links per fetched page, failures allowed
anywhere), the `crawl_docs` loop terminates — after finitely many
iterations the frontier is empty; and a failed fetch leaves the result
map unchanged and simply continues with the remaining frontier. -/
theorem c5_crawl_terminates (f : String → Page) (max_depth : Nat)
    (start_urls : List String) :
    (∃ m, ((crawlStep f max_depth)^[m] (initCrawlState start_urls)).toVisit = []) ∧
    (∀ (s : CrawlState) (url : String) (depth : Nat) (hint : String)
        (rest : List (String × Nat × String)),
      s.toVisit = (url, depth, hint) :: rest →
      (f url).success = false →
      (crawlStep f max_depth s).pages = s.pages ∧
      (crawlStep f max_depth s).toVisit = rest) := by
  constructor
  · apply crawl_terminates_aux f start_urls max_depth
      (crawlMeasure f start_urls max_depth (initCrawlState start_urls)) _ (le_refl _)
    constructor
    · intro it hit _
      have hmm : it ∈ start_urls.map (fun u => (u, 0, "main")) := hit
      obtain ⟨u, hu, rfl⟩ := List.mem_map.mp hmm
      exact hu
    · intro u hu
      exact absurd hu (Finset.not_mem_empty u)
  · intro s url depth hint rest hfront hfail
    unfold crawlStep
    rw [hfront]
    by_cases h1 : url ∈ s.visited ∨ max_depth < depth
    · simp only [h1, if_true]
      constructor <;> trivial
    · simp only [h1, if_false]
      by_cases h2 : MAX_PAGES_PER_PRODUCT ≤ s.counts (get_product_area url)
      · simp only [h2, if_true]
        constructor <;> trivial
      · simp only [h2, if_false]
        simp only [hfail, Bool.false_eq_true, if_false]
        constructor <;> trivial

/-- Witness for `c5_crawl_terminates`: one seed whose fetch fails under
the all-failing fetcher. -/
theorem c5_crawl_terminates_witness :
    (∃ m, ((crawlStep allFailFetcher 0)^[m] (initCrawlState ["u"])).toVisit = []) ∧
    ((crawlStep allFailFetcher 0 (initCrawlState ["u"])).pages = (initCrawlState ["u"]).pages ∧
     (crawlStep allFailFetcher 0 (initCrawlState ["u"])).toVisit = []) :=
  ⟨(c5_crawl_terminates allFailFetcher 0 ["u"]).1,
   (c5_crawl_terminates allFailFetcher 0 ["u"]).2 (initCrawlState ["u"]) "u" 0 "main" []
     rfl rfl⟩

/-! ## C3: the `no results` placeholder -/

/-- A fetcher whose every fetch succeeds with fixed title/content and no
links. -/
def allOkFetcher : String → Page :=
  fun u => { url := u, title := "t", content := "c", links := [], success := true }

theorem expandOverview_zero (f : String → Page) (q : String)
    (hscore : ∀ u, calculate_relevance q (f u) = 0) :
    ∀ (links : List String) (acc : List SearchResult), expandOverview f q acc links = acc := by
  intro links acc
  unfold expandOverview
  generalize links.take 30 = l
  induction l generalizing acc with
  | nil => rfl
  | cons x xs ih =>
    simp only [List.foldl_cons]
    by_cases hmem : x ∈ acc.map (fun r => r.url)
    · rw [if_pos hmem]
      exact ih acc
    · rw [if_neg hmem]
      by_cases hsucc : (f x).success = true
      · rw [if_pos hsucc, hscore x]
        rw [if_neg (by omega : ¬ (0 : Int) < 0)]
        exact ih acc
      · rw [if_neg hsucc]
        exact ih acc

theorem expandHighScore_zero (f : String → Page) (q : String) (doc_urls : List String)
    (hscore : ∀ u, calculate_relevance q (f u) = 0) :
    ∀ (links : List String) (acc : List SearchResult),
      expandHighScore f q doc_urls acc links = acc := by
  intro links acc
  unfold expandHighScore
  generalize links.take 20 = l
  induction l generalizing acc with
  | nil => rfl
  | cons x xs ih =>
    simp only [List.foldl_cons]
    by_cases hmem : x ∈ doc_urls
    · rw [if_pos hmem]
      exact ih acc
    · rw [if_neg hmem]
      by_cases hsucc : (f x).success = true
      · rw [if_pos hsucc, hscore x]
        rw [if_neg (by omega : ¬ (0 : Int) < 0)]
        exact ih acc
      · rw [if_neg hsucc]
        exact ih acc

theorem processUrl_zero (f : String → Page) (q : String) (doc_urls : List String)
    (hscore : ∀ u, calculate_relevance q (f u) = 0) :
    ∀ (acc : List SearchResult) (url : String), processUrl f q doc_urls acc url = acc := by
  intro acc url
  unfold processUrl
  by_cases hsucc : (f url).success = true
  · rw [if_pos hsucc]
    dsimp only
    rw [hscore url]
    rw [if_neg (by omega : ¬ (0 : Int) < 0)]
    by_cases hover : (f url).links ≠ [] ∧
        (pyContains "overview" url || pyContains "web-governance" url) = true
    · rw [if_pos hover]
      exact expandOverview_zero f q hscore _ acc
    · rw [if_neg hover]
  · rw [if_neg hsucc]

theorem collectResults_zero (f : String → Page) (searchResp : Option (List String))
    (q : String) (hscore : ∀ u, calculate_relevance q (f u) = 0) :
    collectResults f searchResp q = [] := by
  unfold collectResults
  have hfold : ∀ (doc_urls urls : List String) (acc : List SearchResult),
      urls.foldl (processUrl f q doc_urls) acc = acc := by
    intro doc_urls urls
    induction urls with
    | nil => intro acc; rfl
    | cons x xs ih =>
      intro acc
      rw [List.foldl_cons, processUrl_zero f q doc_urls hscore acc x]
      exact ih acc
  exact hfold _ _ []

/-- C3 (amended): for every query that is **not** recognised as
Memcached-related and for which every fetched candidate page scores 0
(in particular every nonempty query whose words match nothing),
`direct_search_docs` returns exactly the single placeholder result
carrying the manual-search fallback URL and relevance 0 — never an
empty list and never an exception.  The two carve-outs are forced by
the code: the empty query scores positively on every successfully
fetched page (`"" in title` is `True` and `content.count("")` is
`len+1`, see `c3_placeholder_counterexample`), and a Memcached query
gets the canonical document injected instead of the placeholder. -/
theorem c3_placeholder_amended (f : String → Page) (searchResp : Option (List String))
    (q : String) (hq : is_memcached_related_query q = false)
    (hscore : ∀ u, calculate_relevance q (f u) = 0) :
    direct_search_docs f searchResp q = [noResultsPlaceholder q] := by
  unfold direct_search_docs
  rw [collectResults_zero f searchResp q hscore]
  simp [sortByRelevanceDesc, smart_memcached_injection, hq]

/-- Witness for `c3_placeholder_amended`: the query `zzz` with a
fetcher that always fails. -/
theorem c3_placeholder_witness :
    direct_search_docs allFailFetcher none "zzz" = [noResultsPlaceholder "zzz"] :=
  c3_placeholder_amended allFailFetcher none "zzz" (by decide) (fun _ => rfl)

/-- C3 counterexample: for the *empty* query the claim fails.  Every
successfully fetched page scores `10 + 2*(len(content)+1) > 0`
(Python: `"" in title` is `True`, `content.count("")` is `len+1`), so
with a fetcher that returns a tiny page for every entry point the
result is ten scored results of relevance 14, not the single
placeholder of relevance 0. -/
theorem c3_placeholder_counterexample :
    (direct_search_docs allOkFetcher none "").length = 10 ∧
    (direct_search_docs allOkFetcher none "").head?.map (fun r => r.relevance)
      = some 14 := by
  exact ⟨by decide, by decide⟩

/-! ## C1: the pinned Memcached result -/

theorem mem_insertDesc (r x : SearchResult) (l : List SearchResult) :
    x ∈ insertDesc r l ↔ x = r ∨ x ∈ l := by
  induction l with
  | nil => simp [insertDesc]
  | cons y ys ih =>
    unfold insertDesc
    split_ifs with h
    · simp [List.mem_cons]
    · rw [List.mem_cons, ih, List.mem_cons]
      tauto

theorem mem_sortByRelevanceDesc (x : SearchResult) (l : List SearchResult) :
    x ∈ sortByRelevanceDesc l ↔ x ∈ l := by
  induction l with
  | nil => simp [sortByRelevanceDesc]
  | cons y ys ih =>
    unfold sortByRelevanceDesc
    rw [mem_insertDesc, ih, List.mem_cons]

/-- C1 (amended): a query matching the recognised Memcached pattern has
the pinned canonical document ranked first *whenever none of the
collected results already carries `MEMCACHED_DOC_URL`* — then
`smart_memcached_injection` inserts it at rank 0 unconditionally.  When
the canonical document was already collected, it is ranked purely by
its computed score and a higher-scoring generic page precedes it (see
`c1_memcached_pinned_counterexample`). -/
theorem c1_memcached_pinned_amended (f : String → Page)
    (searchResp : Option (List String)) (q : String)
    (hq : is_memcached_related_query q = true)
    (habs : ∀ r ∈ collectResults f searchResp q, r.url ≠ MEMCACHED_DOC_URL) :
    (direct_search_docs f searchResp q).head?.map (fun r => r.url)
      = some MEMCACHED_DOC_URL := by
  unfold direct_search_docs
  dsimp only
  have hany : (sortByRelevanceDesc (collectResults f searchResp q)).any
      (fun result => result.url = MEMCACHED_DOC_URL) = false := by
    by_contra hcon
    have htrue : (sortByRelevanceDesc (collectResults f searchResp q)).any
        (fun result => result.url = MEMCACHED_DOC_URL) = true := by
      cases hcase : (sortByRelevanceDesc (collectResults f searchResp q)).any
          (fun result => result.url = MEMCACHED_DOC_URL) with
      | false => exact absurd hcase hcon
      | true => rfl
    rw [List.any_eq_true] at htrue
    obtain ⟨r, hr, hurl⟩ := htrue
    rw [mem_sortByRelevanceDesc] at hr
    exact habs r hr (by simpa using hurl)
  unfold smart_memcached_injection
  dsimp only
  rw [if_pos hq, hany]
  rw [if_neg (Bool.false_ne_true)]
  rw [if_neg (List.cons_ne_nil _ _)]
  rfl

/-- The fetcher of the C1 counterexample: the Cloud Platform overview
entry point succeeds with `memcached` in its title and thirty
occurrences of `memcache` in its body (collecting the 1000-point title
boost and thirty 50-point keyword boosts), the canonical Memcached page
succeeds with empty content (the cache that normally holds the
canonical text may have been cleared by the `refresh_docs` tool), and
everything else fails. -/
def c1Fetcher : String → Page := fun u =>
  if u = "https://docs.acquia.com/acquia-cloud-platform/overview" then
    { url := u
      title := "memcached stuff"
      content := String.intercalate " " (List.replicate 30 "memcache")
      links := []
      success := true }
  else if u = MEMCACHED_DOC_URL then
    { url := u
      title := "Enabling Memcached on Cloud Platform"
      content := ""
      links := []
      success := true }
  else
    { url := u, title := "Network Error", content := "Network error: x", links := [],
      success := false }

set_option maxRecDepth 100000 in
/-- C1 counterexample: for the recognised Memcached query
`enable memcached`, when the canonical document is itself among the
collected results (here: discovered through the site-search scrape)
with score 1005 while a generic page scores 2505, the result list keeps
the generic page first — `smart_memcached_injection` only inserts at
rank 0 when the canonical URL is absent, and the sort places the
canonical document second. -/
theorem c1_memcached_pinned_counterexample :
    is_memcached_related_query "enable memcached" = true ∧
    ((direct_search_docs c1Fetcher (some [MEMCACHED_DOC_URL]) "enable memcached").map
      (fun r => r.url)).contains MEMCACHED_DOC_URL = true ∧
    (direct_search_docs c1Fetcher (some [MEMCACHED_DOC_URL]) "enable memcached").head?.map
      (fun r => r.url)
      = some "https://docs.acquia.com/acquia-cloud-platform/overview" := by
  refine ⟨by decide, by decide, by decide⟩

/-- Witness for `c1_memcached_pinned_amended`: all fetches fail, so
nothing is collected and the injected canonical document is the head. -/
theorem c1_memcached_pinned_witness :
    (direct_search_docs allFailFetcher none "enable memcached").head?.map (fun r => r.url)
      = some MEMCACHED_DOC_URL :=
  c1_memcached_pinned_amended allFailFetcher none "enable memcached" (by decide)
    (by
      intro r hr
      rw [show collectResults allFailFetcher none "enable memcached" = [] from by decide] at hr
      simp at hr)
